import Mathlib

set_option linter.unusedVariables false

/-! Shallow embedding of the DIY_on_kata engine (src/mcts.py, src/gtp.py, and the
interface of src/neuralnet.py).

Modelling conventions:
- Python floats are modelled as exact rationals (ℚ).
- `math.sqrt` is modelled by an arbitrary parameter `sqrtf : Nat → ℚ`
  (the square root of a node's visit count only enters the PUCT priority as a
  common scaling factor; `math.sqrt(0) = 0.0` exactly, which corresponds to the
  hypothesis `sqrtf 0 = 0` where it matters).
- Python dicts are modelled as insertion-ordered association lists, matching
  dict iteration and update order (updating an existing key keeps its position,
  a new key is appended at the end).
- Python exceptions are modelled with `Except PyError`; the in-place mutation
  of the tree in mcts.py is modelled by returning the updated tree.
-/

/-- A move is a pair (player, location), e.g. ("B", "Q16") — mcts.py header note. -/
abbrev Move := String × String

/-- Result of `NeuralNet.evaluate` (neuralnet.py `_get_evaluation`); the
`black_score` entry is never read by mcts.py or gtp.py and is omitted. -/
structure Eval where
  policy_by_location : List (String × ℚ)
  black_winrate : ℚ

/-- The MCTS tree node of mcts.py `make_node`: a dict with keys
`visits`, `child_by_location`, `policy_by_location` (None until expanded) and
`black_winrate` (None until first visit). -/
inductive Node where
  | mk : Nat → List (String × Node) → Option (List (String × ℚ)) → Option ℚ → Node

/-- Projection: the `visits` entry of a node. -/
def Node.visits : Node → Nat
  | .mk v _ _ _ => v

/-- Projection: the `child_by_location` entry of a node. -/
def Node.child_by_location : Node → List (String × Node)
  | .mk _ ch _ _ => ch

/-- Projection: the `policy_by_location` entry of a node (None until expanded). -/
def Node.policy_by_location : Node → Option (List (String × ℚ))
  | .mk _ _ pol _ => pol

/-- Projection: the `black_winrate` entry of a node (None until first visit). -/
def Node.black_winrate : Node → Option ℚ
  | .mk _ _ _ wr => wr

/-- mcts.py `make_node`: visits 0, no children, policy None, winrate None. -/
def make_node : Node := .mk 0 [] none none

/-- Association-list lookup modelling Python `dict.get` on `child_by_location`. -/
def lookupLoc : List (String × Node) → String → Option Node
  | [], _ => none
  | (k, c) :: rest, loc => if k = loc then some c else lookupLoc rest loc

/-- Association-list lookup modelling Python `dict[key]` on `policy_by_location`
(the code raises `KeyError` for an absent key; all call sites look up keys of
the same dict, so the `Option` is always `some` there). -/
def lookupQ : List (String × ℚ) → String → Option ℚ
  | [], _ => none
  | (k, p) :: rest, loc => if k = loc then some p else lookupQ rest loc

/-- Keys of an association list, in iteration order (Python `dict.keys()`). -/
def keysOf {β : Type} (l : List (String × β)) : List String :=
  l.map (fun pr => pr.1)

/-- Python dict update `d[loc] = c`: replace the first binding of `loc`
in place, or append a new binding at the end. -/
def setChild : List (String × Node) → String → Node → List (String × Node)
  | [], loc, c => [(loc, c)]
  | (k, n) :: rest, loc, c =>
      if k = loc then (k, c) :: rest else (k, n) :: setChild rest loc c

/-- mcts.py `find_child`: `node['child_by_location'].get(location)`. -/
def find_child (n : Node) (loc : String) : Option Node :=
  lookupLoc n.child_by_location loc

/-- The policy dict of a node, reading Python's `None` as the empty dict
(both are falsy, which is all the code ever tests). -/
def policyD (n : Node) : List (String × ℚ) :=
  n.policy_by_location.getD []

/-- mcts.py `_is_expanded`: `bool(node['policy_by_location'])` — true iff the
policy is a non-empty dict (both `None` and `{}` are falsy). -/
def isExpanded (n : Node) : Bool :=
  !(policyD n).isEmpty

/-- mcts.py `_has_child`: `bool(node['child_by_location'])`. -/
def has_child (n : Node) : Bool :=
  !(n.child_by_location).isEmpty

/-- A node's winrate with Python's `None` read as 0 (the code would raise on
`None`; every node whose winrate is read has been expanded, so the default is
never observable on code-reachable trees). -/
def wrD (n : Node) : ℚ :=
  n.black_winrate.getD 0

/-- mcts.py `opponent`. -/
def opponent (player : String) : String :=
  if player = "B" then "W" else "B"

/-- mcts.py `winrate_for_player`: black's winrate from `player`'s perspective. -/
def winrate_for_player (black_winrate : ℚ) (player : String) : ℚ :=
  if player = "B" then black_winrate else 1 - black_winrate

/-- One comparison step of Python `max(l, key=key)`: the running best is
replaced only on a strictly greater key. -/
def pyMaxStep {α : Type} (key : α → ℚ) (b y : α) : α :=
  if key b < key y then y else b

/-- Python `max(l, key=key)`: the first element attaining the maximal key;
`None` models the `ValueError` on an empty iterable. -/
def argmaxFirst {α : Type} (key : α → ℚ) : List α → Option α
  | [] => none
  | x :: xs => some (xs.foldl (pyMaxStep key) x)

/-- The prior `p = node['policy_by_location'][location]` read by
`_mcts_priority` (the code raises `KeyError` on an absent key; selection only
queries keys of the policy dict, so the default 0 is never observable). -/
def priorOf (node : Node) (location : String) : ℚ :=
  (lookupQ (policyD node) location).getD 0

/-- mcts.py `_mcts_priority`: `v + c_puct * sqrt(node.visits) * p / (n + 1)`
with `c_puct = 1.0` and `(n, v) = (0, 0.0)` for an unexpanded move.
`sqrtf` stands for `math.sqrt` on the visit count. -/
def mcts_priority (sqrtf : Nat → ℚ) (node : Node) (player : String) (location : String) : ℚ :=
  let c_puct : ℚ := 1
  let p := priorOf node location
  let nv : Nat × ℚ :=
    match find_child node location with
    | some child => (child.visits, winrate_for_player (wrD child) player)
    | none => (0, 0)
  let c := c_puct * sqrtf node.visits
  nv.2 + c * p / ((nv.1 : ℚ) + 1)

/-- mcts.py `_select_location`: maximise the PUCT priority over the keys of the
node's policy dict, in dict iteration order. -/
def select_location (sqrtf : Nat → ℚ) (node : Node) (player : String) : Option String :=
  argmaxFirst (fun loc => mcts_priority sqrtf node player loc) (keysOf (policyD node))

/-- mcts.py `_expand_leaf`: store the evaluation's policy and winrate on the
leaf and set its visit count to 1 (children dict is untouched). -/
def expandLeaf (n : Node) (ev : Eval) : Node :=
  .mk 1 n.child_by_location (some ev.policy_by_location) (some ev.black_winrate)

/-- One step of mcts.py `_update_ancestors` on a single ancestor node:
`visits += 1` then `black_winrate += (leaf_eval - black_winrate) / visits`
with the post-increment visit count. -/
def backpropNode (n : Node) (e : ℚ) : Node :=
  .mk (n.visits + 1) n.child_by_location n.policy_by_location
    (some (wrD n + (e - wrD n) / ((n.visits : ℚ) + 1)))

/-- Replace/insert the child of `n` at `loc` (the in-place effect of
`_get_child` plus the recursive update of that child during a playout). -/
def withChild (n : Node) (loc : String) (c : Node) : Node :=
  .mk n.visits (setChild n.child_by_location loc c) n.policy_by_location n.black_winrate

/-- mcts.py `playout` (= `_descend_to_leaf` + `_expand_leaf` +
`_update_ancestors`), written as one recursive descent returning the updated
subtree and the leaf evaluation's black winrate.  While the node is expanded,
select a location, descend into the child (`_get_child` creates a fresh,
necessarily unexpanded child when absent — that case is the inlined `none`
branch, which immediately reaches the leaf case of the loop), then on the way
back apply the ancestor update at this node.  An unexpanded node is the leaf:
evaluate `nnet` on the accumulated move list and expand.
The `none` branch of `select_location` is unreachable: an expanded node has a
non-empty policy dict (Python's `max` would raise only on an empty one). -/
def playout_rec (sqrtf : Nat → ℚ) (nnet : List Move → Eval) (acc : List Move)
    (player : String) (node : Node) : Node × ℚ :=
  if isExpanded node then
    match select_location sqrtf node player with
    | none => (node, 0)
    | some loc =>
      match hc : find_child node loc with
      | some c =>
        let r := playout_rec sqrtf nnet (acc ++ [(player, loc)]) (opponent player) c
        (backpropNode (withChild node loc r.1) r.2, r.2)
      | none =>
        let ev := nnet (acc ++ [(player, loc)])
        (backpropNode (withChild node loc (expandLeaf make_node ev)) ev.black_winrate,
          ev.black_winrate)
  else
    (expandLeaf node (nnet acc), (nnet acc).black_winrate)
termination_by sizeOf node
decreasing_by
  rcases node with ⟨v, ch, pol, wr⟩
  simp only [find_child, Node.child_by_location] at hc
  have hlt : ∀ (l : List (String × Node)) (c0 : Node),
      lookupLoc l loc = some c0 → sizeOf c0 < sizeOf l := by
    intro l
    induction l with
    | nil => intro c0 h0; simp [lookupLoc] at h0
    | cons hd tl ih =>
      intro c0 h0
      rcases hd with ⟨k, n⟩
      simp only [lookupLoc] at h0
      split at h0
      · injection h0 with h1
        subst h1
        simp only [List.cons.sizeOf_spec, Prod.mk.sizeOf_spec]
        omega
      · have := ih c0 h0
        simp only [List.cons.sizeOf_spec, Prod.mk.sizeOf_spec]
        omega
  have := hlt ch c hc
  simp only [Node.mk.sizeOf_spec]
  omega

/-- N playouts from a fresh root (the playout loops of gtp.py `handle_genmove`
and `lz_analyze`): each call is `playout(root, moves_before_root, player, nnet)`
with the same fixed move prefix and player to move. -/
def playoutN (sqrtf : Nat → ℚ) (nnet : List Move → Eval) (movesBefore : List Move)
    (player : String) : Nat → Node
  | 0 => make_node
  | n + 1 => (playout_rec sqrtf nnet movesBefore player
      (playoutN sqrtf nnet movesBefore player n)).1

/-- Stable insertion for descending sort by key: `x` is placed after every
already-sorted element whose key is ≥ its own. -/
def insertDesc (key : String → Nat) (x : String) : List String → List String
  | [] => [x]
  | y :: ys => if key y < key x then x :: y :: ys else y :: insertDesc key x ys

/-- mcts.py `sorted_next_locations`: child locations sorted by descending visit
count; Python `sorted(..., reverse=True)` is stable, i.e. equal-visit locations
keep dict iteration order, which `insertDesc` folded over the keys reproduces.
The criterion reads `find_child(node, loc)['visits']`; the keys iterated are
exactly the child keys, so the lookup always succeeds (default 0 is never
observable). -/
def sorted_next_locations (node : Node) : List String :=
  (keysOf node.child_by_location).foldl
    (fun r loc => insertDesc (fun l => (find_child node l).map Node.visits |>.getD 0) loc r) []

/-- mcts.py `best_next_location`: head of the sorted child locations, or None
when the node has no children. -/
def best_next_location (node : Node) : Option String :=
  (sorted_next_locations node).head?

/-- Total number of nodes of the (finite) tree. -/
def countNodes (n : Node) : Nat :=
  1 + ((n.child_by_location).attach.map (fun pr => countNodes pr.1.2)).sum
termination_by sizeOf n
decreasing_by
  have h1 : sizeOf pr.1 < sizeOf n.child_by_location := List.sizeOf_lt_of_mem pr.2
  rcases n with ⟨v, ch, pol, wr⟩
  simp only [Node.child_by_location] at h1 pr
  obtain ⟨⟨k, c⟩, hm⟩ := pr
  show sizeOf c < sizeOf (Node.mk v ch pol wr)
  simp only [Prod.mk.sizeOf_spec] at h1
  simp only [Node.mk.sizeOf_spec]
  omega

/-- mcts.py `_principal_variation_from_node`: while the node has children,
append `best_next_location` and descend into that child.
`best_next_location node = none` exactly when the node has no children
(the `while` guard `_has_child`); the inner `none` branch is unreachable since
the best location is always a key of `child_by_location`. -/
def pv_from_node (node : Node) : List String :=
  match best_next_location node with
  | none => []
  | some best =>
    match hc : find_child node best with
    | some c => best :: pv_from_node c
    | none => [best]
termination_by sizeOf node
decreasing_by
  rcases node with ⟨v, ch, pol, wr⟩
  simp only [find_child, Node.child_by_location] at hc
  have hlt : ∀ (l : List (String × Node)) (c0 : Node),
      lookupLoc l best = some c0 → sizeOf c0 < sizeOf l := by
    intro l
    induction l with
    | nil => intro c0 h0; simp [lookupLoc] at h0
    | cons hd tl ih =>
      intro c0 h0
      rcases hd with ⟨k, n⟩
      simp only [lookupLoc] at h0
      split at h0
      · injection h0 with h1
        subst h1
        simp only [List.cons.sizeOf_spec, Prod.mk.sizeOf_spec]
        omega
      · have := ih c0 h0
        simp only [List.cons.sizeOf_spec, Prod.mk.sizeOf_spec]
        omega
  have := hlt ch c hc
  simp only [Node.mk.sizeOf_spec]
  omega

/-- mcts.py `principal_variation`: `[location] + pv(find_child(root, location))`;
`none` models the crash on a `location` that is not an existing child
(`None['child_by_location']` would raise). -/
def principal_variation (root : Node) (location : String) : Option (List String) :=
  (find_child root location).map (fun c => location :: pv_from_node c)

/-- Well-formedness of a code-reachable search tree (the invariants of §3 of
the spec), assuming the evaluator always returns a non-empty policy:
a node that has never been evaluated (`policy_by_location = None`) has no
children; an evaluated node stores the non-empty evaluator policy, and each of
its children sits at a key of that policy and has been descended into at least
once (`visits ≥ 1`). -/
def wfNode (n : Node) : Bool :=
  match n.policy_by_location with
  | none => (n.child_by_location).isEmpty
  | some p =>
    (!p.isEmpty) &&
      (n.child_by_location).attach.all (fun pr =>
        ((keysOf p).contains pr.1.1) && (decide (1 ≤ pr.1.2.visits)) && wfNode pr.1.2)
termination_by sizeOf n
decreasing_by
  have h1 : sizeOf pr.1 < sizeOf n.child_by_location := List.sizeOf_lt_of_mem pr.2
  rcases n with ⟨v, ch, pol, wr⟩
  simp only [Node.child_by_location] at h1 pr
  obtain ⟨⟨k, c⟩, hm⟩ := pr
  show sizeOf c < sizeOf (Node.mk v ch pol wr)
  simp only [Prod.mk.sizeOf_spec] at h1
  simp only [Node.mk.sizeOf_spec]
  omega

/-! ## The GTP layer (src/gtp.py) -/

/-- The Python exceptions relevant to gtp.py's dispatcher: `handle` catches
`TypeError` only; everything else propagates and kills the process. -/
inductive PyError where
  | typeError
  | valueError
  | zeroDivisionError
  | attributeError
deriving DecidableEq

/-- The mutable module state of gtp.py / the evaluator's query parameters:
`move_history`, `genmove_sec`, and the `boardXSize`/`boardYSize`/`komi`/
`initialStones` query parameters of neuralnet.py. -/
structure GtpState where
  move_history : List Move
  boardXSize : Nat
  boardYSize : Nat
  komi : ℚ
  initialStones : List Move
  genmove_sec : ℚ

/-- Python `str.upper()` for the ASCII strings the protocol uses. -/
def upperStr (s : String) : String :=
  ⟨s.data.map Char.toUpper⟩

/-- Python `str.isdigit()` for ASCII text: non-empty and all digits. -/
def isDigits (s : String) : Bool :=
  !s.data.isEmpty && s.data.all Char.isDigit

/-- Numeric value of a digit string. -/
def digitsToNat (l : List Char) : Nat :=
  l.foldl (fun a c => 10 * a + (c.toNat - 48)) 0

/-- Python `int(text)` on a decimal string: optional sign, then at least one
digit; `none` models the `ValueError` on anything else. -/
def parseInt (s : String) : Option Int :=
  match s.data with
  | [] => none
  | c :: rest =>
    if c = '-' then
      if !rest.isEmpty && rest.all Char.isDigit then some (-(digitsToNat rest : Int)) else none
    else if c = '+' then
      if !rest.isEmpty && rest.all Char.isDigit then some (digitsToNat rest : Int) else none
    else
      if !(c :: rest).isEmpty && (c :: rest).all Char.isDigit then
        some (digitsToNat (c :: rest) : Int)
      else none

/-- Python `float(text)` restricted to plain decimal literals
(optional sign, digits with at most one point, e.g. "7.5", "-3", ".5", "7.");
`none` models the `ValueError`. Exponent forms are outside the protocol values
exercised here. -/
def parseFloat (s : String) : Option ℚ :=
  let core : List Char → Option ℚ := fun l =>
    let intPart := l.takeWhile (fun c => c ≠ '.')
    let rest := l.dropWhile (fun c => c ≠ '.')
    let fracPart := rest.drop 1
    if intPart.all Char.isDigit ∧ fracPart.all Char.isDigit ∧
        (rest = [] ∨ rest.take 1 = ['.']) ∧ ¬fracPart.contains '.' ∧
        (intPart ≠ [] ∨ fracPart ≠ []) then
      some ((digitsToNat intPart : ℚ) + (digitsToNat fracPart : ℚ) / (10 ^ fracPart.length : ℚ))
    else none
  match s.data with
  | [] => none
  | c :: rest =>
    if c = '-' then (core rest).map (fun q => -q)
    else if c = '+' then core rest
    else core (c :: rest)

/-- gtp.py `play`: append (color.upper(), location.upper() with 'PASS'
canonicalised to lowercase 'pass') to the move history. -/
def play (color vertex : String) (st : GtpState) : GtpState :=
  let player := upperStr color
  let location0 := upperStr vertex
  let location := if location0 = "PASS" then "pass" else location0
  { st with move_history := st.move_history ++ [(player, location)] }

/-- gtp.py `next_player`: black on an empty history, else the opponent of the
player of the last move. -/
def next_player (st : GtpState) : String :=
  match st.move_history.getLast? with
  | none => "B"
  | some mv => opponent mv.1

/-- List-of-chars contiguous-prefix test. -/
def isPrefixList : List Char → List Char → Bool
  | [], _ => true
  | _ :: _, [] => false
  | a :: as, b :: bs => a = b && isPrefixList as bs

/-- Python substring test `a in b` (including the empty string, which is a
substring of everything). -/
def substrOf (a b : List Char) : Bool :=
  match b with
  | [] => a.isEmpty
  | _ :: bs => isPrefixList a b || substrOf a bs

/-- gtp.py `decode_analyze_args`: upper-case the args; optionally consume a
'B'/'W' player override, then a token that is a substring of "INTERVAL"
(Python's `args[0] in 'INTERVAL'` is a substring test), then a digit token
giving the interval in centiseconds (divided by 100); an `IndexError` on any
of the three accesses, or leftover args, force the error interval -1. -/
def decode_analyze_args (defaultPlayer : String) (args0 : List String) : String × ℚ :=
  let args := args0.map upperStr
  match args with
  | [] => (defaultPlayer, -1)
  | x :: rest =>
    let pa := if x = "B" ∨ x = "W" then (x, rest) else (defaultPlayer, x :: rest)
    match pa.2 with
    | [] => (pa.1, -1)
    | y :: rest1 =>
      let args2 := if substrOf y.data "INTERVAL".data then rest1 else y :: rest1
      match args2 with
      | [] => (pa.1, -1)
      | z :: rest2 =>
        if isDigits z then
          if rest2 = [] then (pa.1, (digitsToNat z.data : ℚ) / 100) else (pa.1, -1)
        else (pa.1, -1)

/-- gtp.py `handle_lz_analyze`: reject a negative decoded interval with
"syntax error" and no follow-up; otherwise an empty success response plus the
follow-up `[lz_analyze, player, interval]` (the third component `some (player,
interval)` — `follow_up_maybe` runs the analyze loop only when it is present). -/
def handle_lz_analyze (defaultPlayer : String) (args : List String) :
    Bool × String × Option (String × ℚ) :=
  let pi := decode_analyze_args defaultPlayer args
  if 0 ≤ pi.2 then (true, "", some pi) else (false, "syntax error", none)

/-- gtp.py `handle_time_settings`: `genmove_sec = max(int(main)/400,
int(byo_time)/int(byo_stones) * 0.9)`; a non-integer argument raises
`ValueError` and a zero stones count raises `ZeroDivisionError`, neither of
which the dispatcher catches. -/
def handle_time_settings (mainT byoT byoS : String) (st : GtpState) :
    Except PyError (Bool × String × GtpState) :=
  match parseInt mainT with
  | none => .error .valueError
  | some mi =>
    match parseInt byoT with
    | none => .error .valueError
    | some bi =>
      match parseInt byoS with
      | none => .error .valueError
      | some si =>
        if si = 0 then .error .zeroDivisionError
        else
          .ok (true, "",
            { st with genmove_sec := max ((mi : ℚ) / 400) ((bi : ℚ) / (si : ℚ) * (9 / 10)) })

/-- neuralnet.py column names ('I' is skipped). -/
def colName : List Char := "ABCDEFGHJKLMNOPQRST".data

/-- neuralnet.py `location_for_coord`: column letter `col_name[j]` and row
number `str(boardXSize - i)` for a coordinate pair (i, j). -/
def location_for_coord (w : Nat) (coord : Nat × Nat) : String :=
  String.singleton (colName.getD coord.2 '?') ++ toString (w - coord.1)

/-- gtp.py `fixed_handicap_locations`: star points scaled to the board size
(corners, then edge stars, then center), truncated to the requested count;
for 5 or 7 stones the last computed point is replaced by the center. -/
def fixed_handicap_locations (boardSize : Nat) (n : Nat) : List String :=
  let i1 := if boardSize > 12 then 3 else 2
  let i2 := boardSize / 2
  let i3 := boardSize - 1 - i1
  let corners := [(i1, i3), (i3, i1), (i3, i3), (i1, i1)]
  let edges := [(i2, i3), (i2, i1), (i1, i2), (i3, i2)]
  let center := (i2, i2)
  let all_stars := corners ++ edges ++ [center]
  let stars := all_stars.take n
  let locations := stars.map (location_for_coord boardSize)
  if n = 5 ∨ n = 7 then locations.dropLast ++ [location_for_coord boardSize center]
  else locations

/-- The body of gtp.py `handle_fixed_handicap` after `int(...)` has succeeded:
legal iff 1 ≤ k ≤ 9 and the move history is empty; on success install the
stones as Black `initialStones` in the evaluator configuration
(`set_handicap_locations`) and return the space-joined locations; the move
history is never touched. -/
def fixed_handicap_core (k : Int) (st : GtpState) : Bool × String × GtpState :=
  if 0 < k ∧ k ≤ 9 ∧ st.move_history = [] then
    let locations := fixed_handicap_locations st.boardXSize k.toNat
    (true, String.intercalate " " locations,
      { st with initialStones := locations.map (fun l => ("B", l)) })
  else (false, "", st)

/-- The playout loop of gtp.py `handle_genmove`:
`while time.time() < stop_time or root['visits'] < 1: playout(...)`.
`timeOk i` is the value of the i-th evaluation of `time.time() < stop_time`
(always false once the budget is zero or already expired); `fuel` bounds the
number of iterations so the model is total. -/
def genmove_loop (sqrtf : Nat → ℚ) (nnet : List Move → Eval) (movesBefore : List Move)
    (player : String) (timeOk : Nat → Bool) : Nat → Nat → Node → Node
  | 0, _, root => root
  | f + 1, i, root =>
    if timeOk i = true ∨ root.visits < 1 then
      genmove_loop sqrtf nnet movesBefore player timeOk f (i + 1)
        (playout_rec sqrtf nnet movesBefore player root).1
    else root

/-- The GTP command table's keys (gtp.py `command_table`). -/
def command_names : List String :=
  ["protocol_version", "name", "version", "known_command", "list_commands", "quit",
   "boardsize", "clear_board", "komi", "play", "genmove", "undo", "lz-analyze",
   "time_settings", "fixed_handicap"]

/-- One handler invocation with the raw argument strings, before the
dispatcher's `except TypeError` (gtp.py `handler(*args)`); a wrong argument
count raises `TypeError` at call time.  The result carries the success flag,
the result text, the updated state, and the lz-analyze follow-up if any.
Notes on individual handlers:
- `known_command` always raises `TypeError`: `bool_text` applies the dict
  `ret` as a function (`ret(...)` instead of `ret[...]`).
- `boardsize`/`komi` catch their own `ValueError`/`TypeError` and fail softly;
  `time_settings` and `fixed_handicap` do not.
- `genmove` runs the playout loop and then `play(player, best_location)`;
  when the root has no children `best_next_location` is `None` and
  `None.upper()` raises `AttributeError`. -/
def run_handler (sqrtf : Nat → ℚ) (nnet : List Move → Eval) (timeOk : Nat → Bool)
    (fuel : Nat) (cmd : String) (args : List String) (st : GtpState) :
    Except PyError (Bool × String × GtpState × Option (String × ℚ)) :=
  match cmd, args with
  | "protocol_version", [] => .ok (true, "2", st, none)
  | "protocol_version", _ => .error .typeError
  | "name", [] => .ok (true, "DIY_on_kata", st, none)
  | "name", _ => .error .typeError
  | "version", [] => .ok (true, "0.0.0", st, none)
  | "version", _ => .error .typeError
  | "known_command", [c] => .error .typeError
  | "known_command", _ => .error .typeError
  | "list_commands", [] => .ok (true, String.intercalate "\n" command_names, st, none)
  | "list_commands", _ => .error .typeError
  | "quit", [] => .ok (true, "", st, none)
  | "quit", _ => .error .typeError
  | "boardsize", [sizeText] =>
    (match parseInt sizeText with
     | none => .ok (false, "", st, none)
     | some size =>
       if 2 ≤ size ∧ size ≤ 19 then
         .ok (true, "", { st with boardXSize := size.toNat, boardYSize := size.toNat }, none)
       else .ok (false, "unacceptable size", st, none))
  | "boardsize", _ => .error .typeError
  | "clear_board", [] =>
    .ok (true, "", { st with move_history := [], initialStones := [] }, none)
  | "clear_board", _ => .error .typeError
  | "komi", [komiText] =>
    (match parseFloat komiText with
     | none => .ok (false, "", st, none)
     | some q =>
       if (2 * q).den = 1 then .ok (true, "", { st with komi := q }, none)
       else .ok (false, "unacceptable komi \"" ++ komiText ++ "\"", st, none))
  | "komi", _ => .error .typeError
  | "play", [color, vertex] => .ok (true, "", play color vertex st, none)
  | "play", _ => .error .typeError
  | "genmove", [color] =>
    let player := upperStr color
    let root := genmove_loop sqrtf nnet st.move_history player timeOk fuel 0 make_node
    (match best_next_location root with
     | none => .error .attributeError
     | some loc => .ok (true, loc, play player loc st, none))
  | "genmove", _ => .error .typeError
  | "undo", [] =>
    if st.move_history.isEmpty then .ok (false, "cannot undo", st, none)
    else .ok (true, "", { st with move_history := st.move_history.dropLast }, none)
  | "undo", _ => .error .typeError
  | "lz-analyze", anyArgs =>
    let r := handle_lz_analyze (next_player st) anyArgs
    .ok (r.1, r.2.1, st, r.2.2)
  | "time_settings", [mainT, byoT, byoS] =>
    (handle_time_settings mainT byoT byoS st).map (fun r => (r.1, r.2.1, r.2.2, none))
  | "time_settings", _ => .error .typeError
  | "fixed_handicap", [t] =>
    (match parseInt t with
     | none => .error .valueError
     | some k =>
       let r := fixed_handicap_core k st
       .ok (r.1, r.2.1, r.2.2, none))
  | "fixed_handicap", _ => .error .typeError
  | _, _ => .ok (false, "unknown command", st, none)

/-- gtp.py `handle`: run the handler, converting a `TypeError` into the failure
reply "syntax error"; every other exception propagates (and crashes the
process, since `run_gtp` has no handler). -/
def handle (sqrtf : Nat → ℚ) (nnet : List Move → Eval) (timeOk : Nat → Bool)
    (fuel : Nat) (cmd : String) (args : List String) (st : GtpState) :
    Except PyError (Bool × String × GtpState × Option (String × ℚ)) :=
  match run_handler sqrtf nnet timeOk fuel cmd args st with
  | .error .typeError => .ok (false, "syntax error", st, none)
  | r => r

/-! ## Concrete fixtures for witnesses -/

/-- A concrete stand-in for `math.sqrt` (only `sqrtf 0 = 0` is ever needed). -/
def sqrt0 : Nat → ℚ := fun n => (Nat.sqrt n : ℚ)

/-- A concrete evaluator: every position has the single legal move "pass". -/
def nnet0 : List Move → Eval := fun _ => ⟨[("pass", 1)], 1 / 2⟩

/-- A concrete evaluator returning 3/10 for the root position (empty move
list) and 7/10 for every deeper position. -/
def nnet1 : List Move → Eval :=
  fun ms => if ms.isEmpty then ⟨[("A", 1 / 2), ("pass", 1 / 2)], 3 / 10⟩
            else ⟨[("pass", 1)], 7 / 10⟩

/-- Initial gtp.py/neuralnet.py state: empty history, 19×19, komi 7.5,
no handicap stones, genmove_sec 1. -/
def st0 : GtpState := ⟨[], 19, 19, 15 / 2, [], 1⟩

/-- A 9×9 state with empty history (the fixed_handicap scenario). -/
def st9 : GtpState := ⟨[], 9, 9, 15 / 2, [], 1⟩

/-- A concrete expanded node with two legal moves and no children, zero visits. -/
def nodeC4 : Node := .mk 0 [] (some [("A", 3 / 5), ("pass", 2 / 5)]) none

/-- A concrete leaf child for the principal-variation witness. -/
def nodeC7child : Node := .mk 1 [] (some [("pass", 1)]) (some (1 / 2))

/-- A concrete one-child tree for the principal-variation witness. -/
def nodeC7 : Node := .mk 2 [("A", nodeC7child)] (some [("A", 1)]) (some (1 / 2))

/-! ## Helper lemmas: association lists and Python max -/

theorem lookupLoc_mem {l : List (String × Node)} {loc : String} {c : Node}
    (h : lookupLoc l loc = some c) : (loc, c) ∈ l := by
  induction l with
  | nil => simp [lookupLoc] at h
  | cons hd tl ih =>
    rcases hd with ⟨k, n⟩
    simp only [lookupLoc] at h
    split at h
    · injection h with h1
      subst h1
      rename_i hk
      subst hk
      exact List.mem_cons_self _ _
    · exact List.mem_cons_of_mem _ (ih h)

theorem find_child_sizeOf {n : Node} {loc : String} {c : Node}
    (h : find_child n loc = some c) : sizeOf c < sizeOf n := by
  rcases n with ⟨v, ch, pol, wr⟩
  simp only [find_child, Node.child_by_location] at h
  have hm := lookupLoc_mem h
  have h1 : sizeOf (loc, c) < sizeOf ch := List.sizeOf_lt_of_mem hm
  simp only [Prod.mk.sizeOf_spec] at h1
  simp only [Node.mk.sizeOf_spec]
  omega

theorem mem_keys_exists_lookupLoc {l : List (String × Node)} {loc : String}
    (h : loc ∈ keysOf l) : ∃ c, lookupLoc l loc = some c := by
  induction l with
  | nil => simp [keysOf] at h
  | cons hd tl ih =>
    rcases hd with ⟨k, n⟩
    by_cases hk : k = loc
    · exact ⟨n, by simp [lookupLoc, hk]⟩
    · have hmem : loc ∈ keysOf tl := by
        simp only [keysOf, List.map_cons, List.mem_cons] at h
        rcases h with h | h
        · exact absurd h.symm hk
        · exact h
      obtain ⟨c, hc⟩ := ih hmem
      exact ⟨c, by simp [lookupLoc, hk, hc]⟩

theorem setChild_mem {l : List (String × Node)} {loc : String} {c : Node}
    {pr : String × Node} (h : pr ∈ setChild l loc c) :
    pr = (loc, c) ∨ pr ∈ l := by
  induction l with
  | nil => simpa [setChild] using h
  | cons hd tl ih =>
    rcases hd with ⟨k, n⟩
    simp only [setChild] at h
    split at h
    · rename_i hk
      subst hk
      rcases List.mem_cons.mp h with h | h
      · left; rw [h]
      · right; exact List.mem_cons_of_mem _ h
    · rcases List.mem_cons.mp h with h | h
      · right; rw [h]; exact List.mem_cons_self _ _
      · rcases ih h with h | h
        · left; exact h
        · right; exact List.mem_cons_of_mem _ h

theorem foldl_pyMax_split {α : Type} (key : α → ℚ) :
    ∀ (xs : List α) (x : α),
      ∃ l1 l2, x :: xs = l1 ++ (xs.foldl (pyMaxStep key) x) :: l2
        ∧ (∀ y ∈ l1, key y < key (xs.foldl (pyMaxStep key) x))
        ∧ (∀ y ∈ x :: xs, key y ≤ key (xs.foldl (pyMaxStep key) x)) := by
  intro xs
  induction xs with
  | nil =>
    intro x
    exact ⟨[], [], rfl, by simp, by simp⟩
  | cons y ys ih =>
    intro x
    by_cases h : key x < key y
    · have hstep : pyMaxStep key x y = y := by simp [pyMaxStep, h]
      obtain ⟨l1, l2, heq, hlt, hle⟩ := ih y
      refine ⟨x :: l1, l2, ?_, ?_, ?_⟩
      · simp only [List.foldl_cons, hstep]
        rw [List.cons_append]
        exact congrArg (x :: ·) heq
      · intro z hz
        simp only [List.foldl_cons, hstep]
        rcases List.mem_cons.mp hz with hz | hz
        · subst hz
          exact lt_of_lt_of_le h (hle y (List.mem_cons_self _ _))
        · exact hlt z hz
      · intro z hz
        simp only [List.foldl_cons, hstep]
        rcases List.mem_cons.mp hz with hz | hz
        · subst hz
          exact le_of_lt (lt_of_lt_of_le h (hle y (List.mem_cons_self _ _)))
        · exact hle z hz
    · have hstep : pyMaxStep key x y = x := by simp [pyMaxStep, h]
      obtain ⟨l1, l2, heq, hlt, hle⟩ := ih x
      cases l1 with
      | nil =>
        have hm : x = ys.foldl (pyMaxStep key) x := by
          have := heq
          simp only [List.nil_append] at this
          exact (List.cons.injEq _ _ _ _).mp this |>.1
        refine ⟨[], y :: ys, ?_, ?_, ?_⟩
        · simp only [List.foldl_cons, hstep, List.nil_append]
          rw [← hm]
        · simp
        · intro z hz
          simp only [List.foldl_cons, hstep]
          rw [← hm]
          rcases List.mem_cons.mp hz with hz | hz
          · subst hz; exact le_refl _
          · rcases List.mem_cons.mp hz with hz | hz
            · subst hz; exact le_of_not_lt h
            · have := hle z (List.mem_cons_of_mem x hz)
              rw [← hm] at this
              exact this
      | cons a l1t =>
        have ha : a = x ∧ ys = l1t ++ ys.foldl (pyMaxStep key) x :: l2 := by
          have := heq
          simp only [List.cons_append] at this
          have h2 := (List.cons.injEq _ _ _ _).mp this
          exact ⟨h2.1.symm, h2.2⟩
        refine ⟨x :: y :: l1t, l2, ?_, ?_, ?_⟩
        · simp only [List.foldl_cons, hstep, List.cons_append]
          rw [← ha.2]
        · intro z hz
          simp only [List.foldl_cons, hstep]
          have hx_lt : key x < key (ys.foldl (pyMaxStep key) x) := by
            have := hlt a (List.mem_cons_self _ _)
            rw [ha.1] at this
            exact this
          rcases List.mem_cons.mp hz with hz | hz
          · subst hz; exact hx_lt
          · rcases List.mem_cons.mp hz with hz | hz
            · subst hz; exact lt_of_le_of_lt (le_of_not_lt h) hx_lt
            · exact hlt z (List.mem_cons_of_mem _ hz)
        · intro z hz
          simp only [List.foldl_cons, hstep]
          rcases List.mem_cons.mp hz with hz | hz
          · exact hz ▸ hle x (List.mem_cons_self _ _)
          · rcases List.mem_cons.mp hz with hz | hz
            · subst hz
              have hx_lt : key x < key (ys.foldl (pyMaxStep key) x) := by
                have := hlt a (List.mem_cons_self _ _)
                rw [ha.1] at this
                exact this
              exact le_of_lt (lt_of_le_of_lt (le_of_not_lt h) hx_lt)
            · exact hle z (List.mem_cons_of_mem _ hz)

theorem argmaxFirst_split {α : Type} {key : α → ℚ} {l : List α} {m : α}
    (h : argmaxFirst key l = some m) :
    ∃ l1 l2, l = l1 ++ m :: l2 ∧ (∀ y ∈ l1, key y < key m) ∧ ∀ y ∈ l, key y ≤ key m := by
  cases l with
  | nil => simp [argmaxFirst] at h
  | cons x xs =>
    simp only [argmaxFirst] at h
    injection h with h1
    subst h1
    exact foldl_pyMax_split key xs x

theorem argmaxFirst_mem {α : Type} {key : α → ℚ} {l : List α} {m : α}
    (h : argmaxFirst key l = some m) : m ∈ l := by
  obtain ⟨l1, l2, heq, -, -⟩ := argmaxFirst_split h
  rw [heq]
  exact List.mem_append_right _ (List.mem_cons_self _ _)

theorem argmaxFirst_eq_none {α : Type} {key : α → ℚ} {l : List α} :
    argmaxFirst key l = none ↔ l = [] := by
  cases l <;> simp [argmaxFirst]

/-! ## Helper lemmas: expansion and selection -/

theorem isExpanded_iff {n : Node} : isExpanded n = true ↔ policyD n ≠ [] := by
  simp [isExpanded, List.isEmpty_iff]

theorem policyD_eq_some {n : Node} (h : isExpanded n = true) :
    n.policy_by_location = some (policyD n) := by
  cases hp : n.policy_by_location with
  | none =>
    exfalso
    rw [isExpanded_iff] at h
    exact h (by simp [policyD, hp])
  | some p => simp [policyD, hp]

theorem select_location_some (sqrtf : Nat → ℚ) {node : Node} (player : String)
    (h : isExpanded node = true) :
    ∃ loc, select_location sqrtf node player = some loc ∧ loc ∈ keysOf (policyD node) := by
  cases hsel : select_location sqrtf node player with
  | none =>
    exfalso
    rw [isExpanded_iff] at h
    unfold select_location at hsel
    have hkeys := argmaxFirst_eq_none.mp hsel
    apply h
    cases hp : policyD node with
    | nil => rfl
    | cons q qs => rw [hp] at hkeys; simp [keysOf] at hkeys
  | some loc =>
    refine ⟨loc, rfl, ?_⟩
    unfold select_location at hsel
    exact argmaxFirst_mem hsel

/-! ## Field lemmas for node constructions -/

@[simp] theorem Node.visits_mk (v : Nat) (ch : List (String × Node))
    (pol : Option (List (String × ℚ))) (wr : Option ℚ) : (Node.mk v ch pol wr).visits = v := rfl

@[simp] theorem Node.child_mk (v : Nat) (ch : List (String × Node))
    (pol : Option (List (String × ℚ))) (wr : Option ℚ) :
    (Node.mk v ch pol wr).child_by_location = ch := rfl

@[simp] theorem Node.policy_mk (v : Nat) (ch : List (String × Node))
    (pol : Option (List (String × ℚ))) (wr : Option ℚ) :
    (Node.mk v ch pol wr).policy_by_location = pol := rfl

@[simp] theorem Node.winrate_mk (v : Nat) (ch : List (String × Node))
    (pol : Option (List (String × ℚ))) (wr : Option ℚ) :
    (Node.mk v ch pol wr).black_winrate = wr := rfl

@[simp] theorem backpropNode_visits (n : Node) (e : ℚ) :
    (backpropNode n e).visits = n.visits + 1 := rfl

@[simp] theorem backpropNode_child (n : Node) (e : ℚ) :
    (backpropNode n e).child_by_location = n.child_by_location := rfl

@[simp] theorem backpropNode_policy (n : Node) (e : ℚ) :
    (backpropNode n e).policy_by_location = n.policy_by_location := rfl

@[simp] theorem backpropNode_winrate (n : Node) (e : ℚ) :
    (backpropNode n e).black_winrate =
      some (wrD n + (e - wrD n) / ((n.visits : ℚ) + 1)) := rfl

@[simp] theorem withChild_visits (n : Node) (loc : String) (c : Node) :
    (withChild n loc c).visits = n.visits := rfl

@[simp] theorem withChild_child (n : Node) (loc : String) (c : Node) :
    (withChild n loc c).child_by_location = setChild n.child_by_location loc c := rfl

@[simp] theorem withChild_policy (n : Node) (loc : String) (c : Node) :
    (withChild n loc c).policy_by_location = n.policy_by_location := rfl

@[simp] theorem withChild_winrate (n : Node) (loc : String) (c : Node) :
    (withChild n loc c).black_winrate = n.black_winrate := rfl

@[simp] theorem expandLeaf_visits (n : Node) (ev : Eval) : (expandLeaf n ev).visits = 1 := rfl

@[simp] theorem expandLeaf_child (n : Node) (ev : Eval) :
    (expandLeaf n ev).child_by_location = n.child_by_location := rfl

@[simp] theorem expandLeaf_policy (n : Node) (ev : Eval) :
    (expandLeaf n ev).policy_by_location = some ev.policy_by_location := rfl

@[simp] theorem expandLeaf_winrate (n : Node) (ev : Eval) :
    (expandLeaf n ev).black_winrate = some ev.black_winrate := rfl

/-! ## Unfolding lemmas for one playout -/

theorem playout_rec_unexpanded {sqrtf : Nat → ℚ} {nnet : List Move → Eval}
    {acc : List Move} {player : String} {node : Node} (h : isExpanded node = false) :
    playout_rec sqrtf nnet acc player node =
      (expandLeaf node (nnet acc), (nnet acc).black_winrate) := by
  rw [playout_rec]
  simp [h]

theorem playout_rec_expanded_new {sqrtf : Nat → ℚ} {nnet : List Move → Eval}
    {acc : List Move} {player : String} {node : Node} {loc : String}
    (hE : isExpanded node = true) (hs : select_location sqrtf node player = some loc)
    (hc : find_child node loc = none) :
    playout_rec sqrtf nnet acc player node =
      (backpropNode (withChild node loc (expandLeaf make_node (nnet (acc ++ [(player, loc)]))))
         (nnet (acc ++ [(player, loc)])).black_winrate,
       (nnet (acc ++ [(player, loc)])).black_winrate) := by
  rw [playout_rec]
  simp only [hE, if_true, hs]
  split
  · rename_i c1 hceq
    rw [hc] at hceq
    simp at hceq
  · rfl

theorem playout_rec_expanded_child {sqrtf : Nat → ℚ} {nnet : List Move → Eval}
    {acc : List Move} {player : String} {node : Node} {loc : String} {c : Node}
    (hE : isExpanded node = true) (hs : select_location sqrtf node player = some loc)
    (hc : find_child node loc = some c) :
    playout_rec sqrtf nnet acc player node =
      (backpropNode
         (withChild node loc
           (playout_rec sqrtf nnet (acc ++ [(player, loc)]) (opponent player) c).1)
         (playout_rec sqrtf nnet (acc ++ [(player, loc)]) (opponent player) c).2,
       (playout_rec sqrtf nnet (acc ++ [(player, loc)]) (opponent player) c).2) := by
  rw [playout_rec]
  simp only [hE, if_true, hs]
  split
  · rename_i c1 hceq
    rw [hc] at hceq
    injection hceq with hceq1
    subst hceq1
    rfl
  · rename_i hceq
    rw [hc] at hceq
    simp at hceq

/-! ## Per-playout specifications -/

theorem playout_rec_expanded_spec (sqrtf : Nat → ℚ) (nnet : List Move → Eval)
    (acc : List Move) (player : String) {node : Node} (hE : isExpanded node = true) :
    (playout_rec sqrtf nnet acc player node).1.visits = node.visits + 1
    ∧ (playout_rec sqrtf nnet acc player node).1.policy_by_location = node.policy_by_location
    ∧ (playout_rec sqrtf nnet acc player node).1.black_winrate =
        some (wrD node +
          ((playout_rec sqrtf nnet acc player node).2 - wrD node) / ((node.visits : ℚ) + 1)) := by
  obtain ⟨loc, hs, hmem⟩ := select_location_some sqrtf player hE
  cases hc : find_child node loc with
  | some c =>
    rw [playout_rec_expanded_child hE hs hc]
    refine ⟨by simp, by simp, ?_⟩
    simp [wrD]
  | none =>
    rw [playout_rec_expanded_new hE hs hc]
    refine ⟨by simp, by simp, ?_⟩
    simp [wrD]

theorem isExpanded_expandLeaf {n : Node} {ev : Eval}
    (h : ev.policy_by_location ≠ []) : isExpanded (expandLeaf n ev) = true := by
  rw [isExpanded_iff]
  simp [policyD, h]

theorem isExpanded_make_node : isExpanded make_node = false := rfl

/-- Root visit counts after N playouts from a fresh root: the first playout
expands the root (visits 1); each later one passes through it as an ancestor
(visits + 1). -/
theorem playoutN_visits_aux {sqrtf : Nat → ℚ} {nnet : List Move → Eval}
    {movesBefore : List Move} {player : String}
    (h : (nnet movesBefore).policy_by_location ≠ []) :
    ∀ N : Nat, (playoutN sqrtf nnet movesBefore player N).visits = N
      ∧ (1 ≤ N → isExpanded (playoutN sqrtf nnet movesBefore player N) = true) := by
  intro N
  induction N with
  | zero => exact ⟨rfl, by omega⟩
  | succ k ih =>
    rcases Nat.eq_zero_or_pos k with hk | hk
    · subst hk
      have hunf : playoutN sqrtf nnet movesBefore player (0 + 1) =
          (playout_rec sqrtf nnet movesBefore player make_node).1 := rfl
      rw [hunf, playout_rec_unexpanded isExpanded_make_node]
      exact ⟨by simp, fun _ => isExpanded_expandLeaf h⟩
    · have hE := ih.2 hk
      have hspec := playout_rec_expanded_spec sqrtf nnet movesBefore player hE
      refine ⟨?_, fun _ => ?_⟩
      · show (playout_rec sqrtf nnet movesBefore player _).1.visits = k + 1
        rw [hspec.1, ih.1]
      · rw [isExpanded_iff] at hE ⊢
        show policyD (playout_rec sqrtf nnet movesBefore player _).1 ≠ []
        simp only [policyD] at hE ⊢
        rw [hspec.2.1]
        exact hE

/-- Claim C3: for every N ≥ 1 (in fact every N), after exactly N calls of
`playout` on a fresh (empty, unexpanded) root node — given that the evaluator
reports at least one legal move for the root position — the root's `visits`
field equals exactly N: the first playout expands the root itself and sets
`visits` to 1, and each subsequent playout increments the root's visits by
exactly 1 as an ancestor (mcts.py `playout`, `_expand_leaf`,
`_update_ancestors`). -/
theorem c3_root_visits_eq (sqrtf : Nat → ℚ) (nnet : List Move → Eval)
    (movesBefore : List Move) (player : String)
    (h : (nnet movesBefore).policy_by_location ≠ []) (N : Nat) :
    (playoutN sqrtf nnet movesBefore player N).visits = N :=
  (playoutN_visits_aux h N).1

/-- Witness for C3 at a concrete evaluator and N = 3. -/
theorem c3_root_visits_eq_witness :
    (playoutN sqrt0 nnet0 [] "B" 3).visits = 3 :=
  c3_root_visits_eq sqrt0 nnet0 [] "B" (by simp [nnet0]) 3

/-- Claim C5: backpropagation updates each ancestor by `visits += 1` followed
by `black_winrate += (leaf_eval − black_winrate) / visits` with that node's own
post-increment visit count (first conjunct, for any expanded node a playout
passes through); consequently, after exactly two playouts through the same
node — here the root, which every playout passes through — with leaf
evaluations e1 then e2, its `black_winrate` equals (e1+e2)/2 (last conjuncts). -/
theorem c5_backprop_incremental_mean (sqrtf : Nat → ℚ) (nnet : List Move → Eval)
    (movesBefore : List Move) (player : String) (e1 e2 : ℚ)
    (h1 : (nnet movesBefore).black_winrate = e1)
    (h2 : (nnet movesBefore).policy_by_location ≠ [])
    (h3 : ∀ mv : Move, (nnet (movesBefore ++ [mv])).black_winrate = e2) :
    (∀ (acc : List Move) (pl : String) (node : Node), isExpanded node = true →
        (playout_rec sqrtf nnet acc pl node).1.visits = node.visits + 1
        ∧ (playout_rec sqrtf nnet acc pl node).1.black_winrate =
            some (wrD node + ((playout_rec sqrtf nnet acc pl node).2 - wrD node) /
              ((node.visits : ℚ) + 1)))
    ∧ (playoutN sqrtf nnet movesBefore player 2).visits = 2
    ∧ (playoutN sqrtf nnet movesBefore player 2).black_winrate = some ((e1 + e2) / 2) := by
  have hplay1 : playoutN sqrtf nnet movesBefore player 1 =
      expandLeaf make_node (nnet movesBefore) := by
    show (playout_rec sqrtf nnet movesBefore player make_node).1 = _
    rw [playout_rec_unexpanded isExpanded_make_node]
  have hE1 : isExpanded (expandLeaf make_node (nnet movesBefore)) = true :=
    isExpanded_expandLeaf h2
  obtain ⟨loc, hs, hmem⟩ := select_location_some sqrtf player hE1
  have hfc : find_child (expandLeaf make_node (nnet movesBefore)) loc = none := by
    simp [find_child, expandLeaf, make_node, lookupLoc]
  have hplay2 : playoutN sqrtf nnet movesBefore player 2 =
      backpropNode
        (withChild (expandLeaf make_node (nnet movesBefore)) loc
          (expandLeaf make_node (nnet (movesBefore ++ [(player, loc)]))))
        (nnet (movesBefore ++ [(player, loc)])).black_winrate := by
    show (playout_rec sqrtf nnet movesBefore player
        (playoutN sqrtf nnet movesBefore player 1)).1 = _
    rw [hplay1, playout_rec_expanded_new hE1 hs hfc]
  refine ⟨fun acc pl node hE =>
      ⟨(playout_rec_expanded_spec sqrtf nnet acc pl hE).1,
       (playout_rec_expanded_spec sqrtf nnet acc pl hE).2.2⟩, ?_, ?_⟩
  · rw [hplay2]
    simp
  · rw [hplay2]
    rw [h3 (player, loc)]
    simp only [backpropNode_winrate]
    have hwr : wrD (withChild (expandLeaf make_node (nnet movesBefore)) loc
        (expandLeaf make_node (nnet (movesBefore ++ [(player, loc)])))) = e1 := by
      simp [wrD, h1]
    have hv : (withChild (expandLeaf make_node (nnet movesBefore)) loc
        (expandLeaf make_node (nnet (movesBefore ++ [(player, loc)])))).visits = 1 := by
      simp
    rw [hwr, hv]
    congr 1
    push_cast
    ring

/-- Witness for C5 at a concrete evaluator with e1 = 3/10, e2 = 7/10. -/
theorem c5_backprop_incremental_mean_witness :
    (playoutN sqrt0 nnet1 [] "B" 2).black_winrate = some ((3 / 10 + 7 / 10) / 2) :=
  (c5_backprop_incremental_mean sqrt0 nnet1 [] "B" (3 / 10) (7 / 10) rfl
    (by simp [nnet1]) (fun mv => by simp [nnet1])).2.2

/-! ## Well-formedness of reachable trees (C6) -/

theorem wfNode_eq (n : Node) :
    wfNode n = match n.policy_by_location with
      | none => (n.child_by_location).isEmpty
      | some p =>
        (!p.isEmpty) &&
          (n.child_by_location).attach.all (fun pr =>
            ((keysOf p).contains pr.1.1) && (decide (1 ≤ pr.1.2.visits)) && wfNode pr.1.2) := by
  rw [wfNode]

theorem wfNode_none {n : Node} (hp : n.policy_by_location = none) :
    wfNode n = true ↔ n.child_by_location = [] := by
  rw [wfNode_eq, hp]
  simp

theorem wfNode_some_spec {n : Node} {p : List (String × ℚ)}
    (hp : n.policy_by_location = some p) :
    wfNode n = true ↔
      (p ≠ [] ∧ ∀ k c, (k, c) ∈ n.child_by_location →
        k ∈ keysOf p ∧ 1 ≤ c.visits ∧ wfNode c = true) := by
  rw [wfNode_eq, hp]
  simp only [Bool.and_eq_true, List.all_eq_true]
  constructor
  · rintro ⟨hne, hall⟩
    refine ⟨by simpa using hne, ?_⟩
    intro k c hm
    have h := hall ⟨(k, c), hm⟩ (List.mem_attach _ _)
    simp only [Bool.and_eq_true, decide_eq_true_eq] at h
    refine ⟨?_, h.1.2, h.2⟩
    have hcont := h.1.1
    simpa using hcont
  · rintro ⟨hne, hall⟩
    refine ⟨by simpa using hne, ?_⟩
    intro pr hpr
    obtain ⟨⟨k, c⟩, hm⟩ := pr
    have h := hall k c hm
    simp only [Bool.and_eq_true, decide_eq_true_eq]
    exact ⟨⟨by simpa using h.1, h.2.1⟩, h.2.2⟩

theorem wfNode_make_node : wfNode make_node = true := by
  rw [wfNode_none (by rfl)]
  rfl

/-- An unexpanded well-formed node has policy None and no children (a policy
that is `some []` fails `wfNode`, matching that the evaluator never reports an
empty policy under the non-empty-policy hypothesis). -/
theorem wf_unexpanded {n : Node} (hwf : wfNode n = true) (hE : isExpanded n = false) :
    n.policy_by_location = none ∧ n.child_by_location = [] := by
  cases hp : n.policy_by_location with
  | none => exact ⟨rfl, (wfNode_none hp).mp hwf⟩
  | some p =>
    exfalso
    have hpe : p = [] := by
      by_contra hne
      have : isExpanded n = true := by
        rw [isExpanded_iff]
        simp [policyD, hp, hne]
      rw [this] at hE
      cases hE
    subst hpe
    have := (wfNode_some_spec hp).mp hwf
    exact this.1 rfl

theorem wf_expandLeaf {n : Node} {ev : Eval} (hch : n.child_by_location = [])
    (hp : ev.policy_by_location ≠ []) : wfNode (expandLeaf n ev) = true := by
  have hpol : (expandLeaf n ev).policy_by_location = some ev.policy_by_location := by simp
  rw [wfNode_some_spec hpol]
  refine ⟨hp, ?_⟩
  intro k c hm
  simp [hch] at hm

/-- One playout preserves well-formedness and leaves the played-out subtree
with at least one visit. -/
theorem playout_rec_wf_aux (sqrtf : Nat → ℚ) {nnet : List Move → Eval}
    (hnn : ∀ ms, (nnet ms).policy_by_location ≠ []) :
    ∀ (fuel : Nat) (node : Node), sizeOf node < fuel → wfNode node = true →
    ∀ (acc : List Move) (player : String),
      wfNode (playout_rec sqrtf nnet acc player node).1 = true
      ∧ 1 ≤ (playout_rec sqrtf nnet acc player node).1.visits := by
  intro fuel
  induction fuel with
  | zero => intro node h; omega
  | succ f ih =>
    intro node hsz hwf acc player
    cases hE : isExpanded node with
    | false =>
      obtain ⟨hpol, hch⟩ := wf_unexpanded hwf hE
      rw [playout_rec_unexpanded hE]
      exact ⟨wf_expandLeaf hch (hnn acc), by simp⟩
    | true =>
      have hp : node.policy_by_location = some (policyD node) := policyD_eq_some hE
      have hspec := (wfNode_some_spec hp).mp hwf
      obtain ⟨loc, hs, hmem⟩ := select_location_some sqrtf player hE
      cases hc : find_child node loc with
      | some c =>
        have hcmem := lookupLoc_mem hc
        have hcprops := hspec.2 loc c hcmem
        have hszc : sizeOf c < f := by
          have := find_child_sizeOf hc
          omega
        have hrec := ih c hszc hcprops.2.2 (acc ++ [(player, loc)]) (opponent player)
        rw [playout_rec_expanded_child hE hs hc]
        constructor
        · have hpol2 : (backpropNode
              (withChild node loc
                (playout_rec sqrtf nnet (acc ++ [(player, loc)]) (opponent player) c).1)
              (playout_rec sqrtf nnet (acc ++ [(player, loc)]) (opponent player) c).2,
              (playout_rec sqrtf nnet (acc ++ [(player, loc)]) (opponent player) c).2).1.policy_by_location
              = some (policyD node) := by simp [hp]
          rw [wfNode_some_spec hpol2]
          refine ⟨hspec.1, ?_⟩
          intro k c0 hm
          simp only [backpropNode_child, withChild_child] at hm
          rcases setChild_mem hm with hm | hm
          · injection hm with hm1 hm2
            subst hm1
            subst hm2
            exact ⟨hcprops.1, hrec.2, hrec.1⟩
          · exact hspec.2 k c0 hm
        · simp
      | none =>
        rw [playout_rec_expanded_new hE hs hc]
        constructor
        · have hpol2 : (backpropNode
              (withChild node loc (expandLeaf make_node (nnet (acc ++ [(player, loc)]))))
              (nnet (acc ++ [(player, loc)])).black_winrate,
              (nnet (acc ++ [(player, loc)])).black_winrate).1.policy_by_location
              = some (policyD node) := by simp [hp]
          rw [wfNode_some_spec hpol2]
          refine ⟨hspec.1, ?_⟩
          intro k c0 hm
          simp only [backpropNode_child, withChild_child] at hm
          rcases setChild_mem hm with hm | hm
          · injection hm with hm1 hm2
            subst hm1
            subst hm2
            refine ⟨hmem, by simp, ?_⟩
            exact wf_expandLeaf (by simp [make_node]) (hnn _)
          · exact hspec.2 k c0 hm
        · simp

/-- Claim C6: after any number of playouts from a fresh root — with an
evaluator that always reports a non-empty policy — every node of the resulting
tree satisfies the structural invariants: a never-evaluated node
(`policy_by_location = None`; exactly the nodes the evaluator was never called
on) has no children, an evaluated node's policy is non-empty (so "expanded iff
non-empty policy"), and every key of a `child_by_location` dict is a key of
the node's policy dict, the child having been descended into at least once
(`visits ≥ 1`); the policy may contain many keys with no child. -/
theorem c6_tree_invariants (sqrtf : Nat → ℚ) (nnet : List Move → Eval)
    (movesBefore : List Move) (player : String)
    (hnn : ∀ ms, (nnet ms).policy_by_location ≠ []) :
    ∀ N : Nat, wfNode (playoutN sqrtf nnet movesBefore player N) = true := by
  intro N
  induction N with
  | zero => exact wfNode_make_node
  | succ k ih =>
    have h := playout_rec_wf_aux sqrtf hnn
      (sizeOf (playoutN sqrtf nnet movesBefore player k) + 1)
      (playoutN sqrtf nnet movesBefore player k) (by omega) ih movesBefore player
    exact h.1

/-- Witness for C6 at a concrete evaluator and N = 2. -/
theorem c6_tree_invariants_witness :
    wfNode (playoutN sqrt0 nnet0 [] "B" 2) = true :=
  c6_tree_invariants sqrt0 nnet0 [] "B" (fun ms => by simp [nnet0]) 2

/-! ## PUCT selection (C4) -/

/-- Claim C4: the selection priority of a legal location equals
`v + 1.0·sqrt(N)·p/(n+1)` where `(n, v)` are the existing child's visits and
its winrate from the mover's perspective, or `(0, 0.0)` when no child exists
(first two conjuncts); when `sqrt(N) = 0` — in particular for `N = 0`, since
`math.sqrt(0) = 0.0` exactly — the priority reduces to `v` (third and fourth
conjuncts); and selection returns a location of maximal priority, the first
maximiser in the deterministic iteration order of the policy keys (last
conjunct: the keys left of the selected one have strictly smaller priority,
and no key beats it). -/
theorem c4_puct_selection (sqrtf : Nat → ℚ) (node : Node) (player : String) :
    (∀ loc c, find_child node loc = some c →
        mcts_priority sqrtf node player loc =
          winrate_for_player (wrD c) player +
            1 * sqrtf node.visits * priorOf node loc / ((c.visits : ℚ) + 1))
    ∧ (∀ loc, find_child node loc = none →
        mcts_priority sqrtf node player loc =
          0 + 1 * sqrtf node.visits * priorOf node loc / ((0 : ℚ) + 1))
    ∧ (sqrtf node.visits = 0 → ∀ loc c, find_child node loc = some c →
        mcts_priority sqrtf node player loc = winrate_for_player (wrD c) player)
    ∧ (sqrtf node.visits = 0 → ∀ loc, find_child node loc = none →
        mcts_priority sqrtf node player loc = 0)
    ∧ (∀ m, select_location sqrtf node player = some m →
        ∃ l1 l2, keysOf (policyD node) = l1 ++ m :: l2
          ∧ (∀ y ∈ l1, mcts_priority sqrtf node player y < mcts_priority sqrtf node player m)
          ∧ (∀ y ∈ keysOf (policyD node),
              mcts_priority sqrtf node player y ≤ mcts_priority sqrtf node player m)) := by
  refine ⟨?_, ?_, ?_, ?_, ?_⟩
  · intro loc c hc
    simp [mcts_priority, hc]
  · intro loc hc
    simp [mcts_priority, hc]
  · intro h0 loc c hc
    simp [mcts_priority, hc, h0]
  · intro h0 loc hc
    simp [mcts_priority, hc, h0]
  · intro m hm
    unfold select_location at hm
    exact argmaxFirst_split hm

/-- Witness for C4 at a concrete expanded node with visits 0 and no children:
the priority of the unexpanded move "A" is the neutral value 0. -/
theorem c4_puct_selection_witness :
    mcts_priority (fun a => 0) nodeC4 "B" "A" = 0 :=
  (c4_puct_selection (fun a => 0) nodeC4 "B").2.2.2.1 rfl "A" rfl

/-! ## Principal variation (C7) -/

theorem mem_insertDesc {key : String → Nat} {x y : String} {l : List String} :
    y ∈ insertDesc key x l ↔ y = x ∨ y ∈ l := by
  induction l with
  | nil => simp [insertDesc]
  | cons a as ih =>
    simp only [insertDesc]
    split
    · simp [List.mem_cons]
    · simp only [List.mem_cons, ih]
      tauto

theorem mem_foldl_insertDesc (key : String → Nat) (y : String) :
    ∀ (ks acc : List String),
      y ∈ ks.foldl (fun r loc => insertDesc key loc r) acc ↔ y ∈ ks ∨ y ∈ acc := by
  intro ks
  induction ks with
  | nil => simp
  | cons a as ih =>
    intro acc
    simp only [List.foldl_cons]
    rw [ih]
    simp only [mem_insertDesc, List.mem_cons]
    tauto

theorem mem_sorted_next {node : Node} {y : String} :
    y ∈ sorted_next_locations node ↔ y ∈ keysOf node.child_by_location := by
  unfold sorted_next_locations
  rw [mem_foldl_insertDesc]
  simp

theorem best_next_location_mem {node : Node} {loc : String}
    (h : best_next_location node = some loc) : loc ∈ keysOf node.child_by_location := by
  unfold best_next_location at h
  have hmem : loc ∈ sorted_next_locations node := by
    cases hs : sorted_next_locations node with
    | nil => rw [hs] at h; simp at h
    | cons a as =>
      rw [hs] at h
      simp only [List.head?_cons] at h
      injection h with h1
      subst h1
      exact List.mem_cons_self _ _
  exact mem_sorted_next.mp hmem

theorem countNodes_eq (n : Node) :
    countNodes n = 1 + ((n.child_by_location).attach.map (fun pr => countNodes pr.1.2)).sum := by
  rw [countNodes]

theorem countNodes_pos (n : Node) : 1 ≤ countNodes n := by
  rw [countNodes_eq]
  omega

theorem countNodes_child_lt {n : Node} {loc : String} {c : Node}
    (h : find_child n loc = some c) : countNodes c < countNodes n := by
  have hm := lookupLoc_mem h
  rw [countNodes_eq n]
  have hmem2 : countNodes c ∈ (n.child_by_location).attach.map (fun pr => countNodes pr.1.2) :=
    List.mem_map.mpr ⟨⟨(loc, c), hm⟩, List.mem_attach _ _, rfl⟩
  have hle : countNodes c ≤ ((n.child_by_location).attach.map (fun pr => countNodes pr.1.2)).sum :=
    List.single_le_sum (fun x hx => Nat.zero_le x) _ hmem2
  omega

theorem pv_from_node_none {node : Node} (h : best_next_location node = none) :
    pv_from_node node = [] := by
  rw [pv_from_node]
  simp [h]

theorem pv_from_node_some {node : Node} {best : String} {c : Node}
    (hb : best_next_location node = some best) (hc : find_child node best = some c) :
    pv_from_node node = best :: pv_from_node c := by
  rw [pv_from_node]
  simp only [hb]
  split
  · rename_i c1 hceq
    rw [hc] at hceq
    injection hceq with h1
    subst h1
    rfl
  · rename_i hceq
    rw [hc] at hceq
    simp at hceq

theorem pv_from_node_length_lt :
    ∀ (fuel : Nat) (node : Node), sizeOf node < fuel →
      (pv_from_node node).length < countNodes node := by
  intro fuel
  induction fuel with
  | zero => intro node h; omega
  | succ f ih =>
    intro node hsz
    cases hb : best_next_location node with
    | none =>
      rw [pv_from_node_none hb]
      have := countNodes_pos node
      simp only [List.length_nil]
      omega
    | some best =>
      have hmem := best_next_location_mem hb
      obtain ⟨c, hc⟩ := mem_keys_exists_lookupLoc hmem
      have hc2 : find_child node best = some c := hc
      rw [pv_from_node_some hb hc2]
      have hszc : sizeOf c < f := by
        have := find_child_sizeOf hc2
        omega
      have h1 := ih c hszc
      have h2 := countNodes_child_lt hc2
      simp only [List.length_cons]
      omega

/-- Claim C7: for a location `loc` that is an existing child of the node,
`principal_variation` returns a sequence whose first element is `loc`, and the
computation terminates — `pv_from_node` is a total function, each step
descending strictly into a child and stopping at the first node with no
children — with the sequence length bounded by the (finite) number of nodes of
the tree, which bounds the number of expanded nodes on the descended path. -/
theorem c7_principal_variation (node c : Node) (loc : String)
    (h : find_child node loc = some c) :
    principal_variation node loc = some (loc :: pv_from_node c)
    ∧ (loc :: pv_from_node c).head? = some loc
    ∧ (loc :: pv_from_node c).length ≤ countNodes node := by
  refine ⟨by simp [principal_variation, h], rfl, ?_⟩
  have h1 := pv_from_node_length_lt (sizeOf c + 1) c (by omega)
  have h2 := countNodes_child_lt h
  simp only [List.length_cons]
  omega

/-- Witness for C7 at a concrete two-node tree. -/
theorem c7_principal_variation_witness :
    principal_variation nodeC7 "A" = some ("A" :: pv_from_node nodeC7child)
    ∧ ("A" :: pv_from_node nodeC7child).head? = some "A"
    ∧ ("A" :: pv_from_node nodeC7child).length ≤ countNodes nodeC7 :=
  c7_principal_variation nodeC7 nodeC7child "A" rfl

/-! ## genmove with an expired budget (C1) -/

theorem genmove_loop_stop {sqrtf : Nat → ℚ} {nnet : List Move → Eval}
    {movesBefore : List Move} {player : String} :
    ∀ (f i : Nat) (root : Node), ¬ root.visits < 1 →
      genmove_loop sqrtf nnet movesBefore player (fun a => false) f i root = root := by
  intro f i root h
  cases f with
  | zero => rfl
  | succ g => simp [genmove_loop, h]

/-- Claim C1 (the code crashes instead): with a zero or already-expired time
budget (every evaluation of `time.time() < stop_time` is false), the
`handle_genmove` loop performs exactly one playout (conjuncts 2 and 3: the
loop result is a single playout from the fresh root, whose visit count is 1);
that single playout only expands the root and creates no children (conjunct
4), so `best_next_location(root)` is `None` and `play(player, None)` raises
`AttributeError` (`None.upper()`), which escapes the handler (conjunct 1) —
no location from the root's policy is returned and nothing is appended to the
move history. -/
theorem c1_genmove_zero_budget (sqrtf : Nat → ℚ) (nnet : List Move → Eval)
    (st : GtpState) (color : String) (f : Nat) :
    run_handler sqrtf nnet (fun a => false) (f + 1) "genmove" [color] st
      = .error .attributeError
    ∧ genmove_loop sqrtf nnet st.move_history (upperStr color) (fun a => false) (f + 1) 0
        make_node
      = (playout_rec sqrtf nnet st.move_history (upperStr color) make_node).1
    ∧ (playout_rec sqrtf nnet st.move_history (upperStr color) make_node).1.visits = 1
    ∧ (playout_rec sqrtf nnet st.move_history (upperStr color) make_node).1.child_by_location
        = [] := by
  have hplay : (playout_rec sqrtf nnet st.move_history (upperStr color) make_node).1
      = expandLeaf make_node (nnet st.move_history) := by
    rw [playout_rec_unexpanded isExpanded_make_node]
  have hloop : genmove_loop sqrtf nnet st.move_history (upperStr color) (fun a => false)
      (f + 1) 0 make_node
      = (playout_rec sqrtf nnet st.move_history (upperStr color) make_node).1 := by
    have h1 : genmove_loop sqrtf nnet st.move_history (upperStr color) (fun a => false)
        (f + 1) 0 make_node
        = genmove_loop sqrtf nnet st.move_history (upperStr color) (fun a => false) f 1
            (playout_rec sqrtf nnet st.move_history (upperStr color) make_node).1 := by
      simp [genmove_loop, make_node, Node.visits]
    rw [h1]
    apply genmove_loop_stop
    rw [hplay]
    simp
  have hbest : best_next_location
      (genmove_loop sqrtf nnet st.move_history (upperStr color) (fun a => false) (f + 1) 0
        make_node) = none := by
    rw [hloop, hplay]
    rfl
  refine ⟨?_, hloop, by rw [hplay]; simp, by rw [hplay]; simp [make_node]⟩
  simp only [run_handler]
  rw [hbest]

/-! ## Dispatcher syntax errors (C2), streaming analyze (C8), time settings (C10) -/

/-- Claim C2 (the code crashes on wrong-typed arguments): a wrong argument
COUNT raises an arity `TypeError` which the dispatcher converts into the
failure reply "syntax error" and survives (conjuncts 2 and 3); but a
wrong-TYPE argument is not generally caught: `fixed_handicap abc` raises
`ValueError` from `int('abc')`, which `handle` (catching `TypeError` only)
lets escape and crash the process (conjunct 1).  `boardsize` by contrast
guards its own parse and fails softly (conjunct 4). -/
theorem c2_wrong_type_crashes (sqrtf : Nat → ℚ) (nnet : List Move → Eval)
    (timeOk : Nat → Bool) (fuel : Nat) (st : GtpState) :
    handle sqrtf nnet timeOk fuel "fixed_handicap" ["abc"] st = .error .valueError
    ∧ handle sqrtf nnet timeOk fuel "fixed_handicap" [] st
        = .ok (false, "syntax error", st, none)
    ∧ handle sqrtf nnet timeOk fuel "play" ["B"] st = .ok (false, "syntax error", st, none)
    ∧ handle sqrtf nnet timeOk fuel "boardsize" ["abc"] st = .ok (false, "", st, none) := by
  refine ⟨rfl, rfl, rfl, rfl⟩

/-- Claim C8: the streaming-analyze handler rejects exactly the argument lists
whose decoded interval is negative (the error marker for an unparseable or
malformed argument list) with the failure reply "syntax error" and no
follow-up — so no background search loop is launched and no report lines are
emitted; any argument list with a non-negative decoded interval yields an
immediate empty success response together with the `[lz_analyze, player,
interval]` follow-up. -/
theorem c8_lz_analyze_accepts_iff (defaultPlayer : String) (args : List String) :
    ((decode_analyze_args defaultPlayer args).2 < 0 →
      handle_lz_analyze defaultPlayer args = (false, "syntax error", none))
    ∧ (0 ≤ (decode_analyze_args defaultPlayer args).2 →
      handle_lz_analyze defaultPlayer args =
        (true, "", some (decode_analyze_args defaultPlayer args))) := by
  unfold handle_lz_analyze
  constructor
  · intro h
    rw [if_neg (not_le.mpr h)]
  · intro h
    rw [if_pos h]

/-- Witness for C8 at the concrete rejected argument list ["FOO"]. -/
theorem c8_lz_analyze_accepts_iff_witness :
    handle_lz_analyze "B" ["FOO"] = (false, "syntax error", none) := by
  have hd : decode_analyze_args "B" ["FOO"] = ("B", -1) := rfl
  exact (c8_lz_analyze_accepts_iff "B" ["FOO"]).1 (by rw [hd]; norm_num)

/-- Claim C10: `handle_time_settings` is total only under the precondition
that the byo-yomi stones argument parses to a non-zero integer: for the
well-typed input `time_settings 600 30 0` the unguarded division reaches the
`ZeroDivisionError` branch, and the dispatcher does not convert it into a
failure reply — the error escapes `handle` (first conjunct); for every
well-typed input with non-zero stones, the handler succeeds and sets
`genmove_sec = max(main/400, byo_time/byo_stones * 0.9)` (second conjunct). -/
theorem c10_time_settings_division (sqrtf : Nat → ℚ) (nnet : List Move → Eval)
    (timeOk : Nat → Bool) (fuel : Nat) (st : GtpState) :
    handle sqrtf nnet timeOk fuel "time_settings" ["600", "30", "0"] st
      = .error .zeroDivisionError
    ∧ (∀ (m b s : String) (mi bi si : Int),
        parseInt m = some mi → parseInt b = some bi → parseInt s = some si → si ≠ 0 →
        handle sqrtf nnet timeOk fuel "time_settings" [m, b, s] st
          = .ok (true, "",
              { st with genmove_sec := max ((mi : ℚ) / 400) ((bi : ℚ) / (si : ℚ) * (9 / 10)) },
              none)) := by
  constructor
  · rfl
  · intro m b s mi bi si hm hb hs hsi
    simp only [handle, run_handler, handle_time_settings, hm, hb, hs]
    simp [hsi, Except.map]

/-- Witness for C10 at the concrete well-typed input `time_settings 600 30 5`. -/
theorem c10_time_settings_division_witness :
    handle sqrt0 nnet0 (fun a => false) 1 "time_settings" ["600", "30", "5"] st0
      = .ok (true, "",
          { st0 with genmove_sec :=
              (max (((600 : Int) : ℚ) / 400) (((30 : Int) : ℚ) / ((5 : Int) : ℚ) * (9 / 10))) },
          none) :=
  (c10_time_settings_division sqrt0 nnet0 (fun a => false) 1 st0).2 "600" "30" "5" 600 30 5
    rfl rfl rfl (by decide)

/-! ## Fixed handicap (C9) -/

theorem fixed_handicap_last_center (boardSize n : Nat) (h : n = 5 ∨ n = 7) :
    (fixed_handicap_locations boardSize n).getLast?
      = some (location_for_coord boardSize (boardSize / 2, boardSize / 2)) := by
  rcases h with h | h <;> subst h <;>
    simp [fixed_handicap_locations, List.getLast?_concat]

/-- Claim C9: `handle_fixed_handicap(n)` succeeds iff 1 ≤ n ≤ 9 and the move
history is empty (conjunct 1); the move history is never mutated (conjunct 2);
on success the computed stones are installed in the evaluator configuration as
Black pre-existing `initialStones` (conjunct 3); for n ∈ {5, 7} the last
computed point is replaced by the center point (conjunct 4); and on a 9×9
board `fixed_handicap 4` computes exactly the 4 distinct corner star points
["G7", "C3", "G3", "C7"] in this fixed deterministic order (conjuncts 5, 6). -/
theorem c9_fixed_handicap (st : GtpState) (k : Int) :
    ((fixed_handicap_core k st).1 = true ↔ (0 < k ∧ k ≤ 9 ∧ st.move_history = []))
    ∧ (fixed_handicap_core k st).2.2.move_history = st.move_history
    ∧ ((fixed_handicap_core k st).1 = true →
        (fixed_handicap_core k st).2.2.initialStones
          = (fixed_handicap_locations st.boardXSize k.toNat).map (fun l => ("B", l)))
    ∧ ((k = 5 ∨ k = 7) → (fixed_handicap_locations st.boardXSize k.toNat).getLast?
          = some (location_for_coord st.boardXSize (st.boardXSize / 2, st.boardXSize / 2)))
    ∧ fixed_handicap_locations 9 4 = ["G7", "C3", "G3", "C7"]
    ∧ List.Pairwise (fun a b => a ≠ b) (fixed_handicap_locations 9 4) := by
  refine ⟨?_, ?_, ?_, ?_, by decide, by decide⟩
  · by_cases hcond : 0 < k ∧ k ≤ 9 ∧ st.move_history = [] <;>
      simp [fixed_handicap_core, hcond]
  · by_cases hcond : 0 < k ∧ k ≤ 9 ∧ st.move_history = [] <;>
      simp [fixed_handicap_core, hcond]
  · intro hsucc
    by_cases hcond : 0 < k ∧ k ≤ 9 ∧ st.move_history = []
    · simp [fixed_handicap_core, hcond]
    · simp [fixed_handicap_core, hcond] at hsucc
  · intro hk
    have h2 : k.toNat = 5 ∨ k.toNat = 7 := by
      rcases hk with h | h <;> subst h
      · left; rfl
      · right; rfl
    exact fixed_handicap_last_center st.boardXSize k.toNat h2

/-- Witness for C9: `fixed_handicap 4` on the 9×9 pre-play state succeeds. -/
theorem c9_fixed_handicap_witness :
    (fixed_handicap_core 4 st9).1 = true :=
  (c9_fixed_handicap st9 4).1.mpr ⟨by decide, by decide, rfl⟩
